import Mathlib

/-!
Shallow embedding of `src/components/EntityHighlighter.tsx` (TypeScript).

Texts are modelled as `List Char` (one element per UTF-16 code unit of the
JavaScript string; all inputs considered here are in the BMP, where the two
notions of character coincide).  JavaScript numbers used as indices and
deltas are modelled as `Int`.  JavaScript library operations that the
component relies on (`String.prototype.substring`, `Array.prototype.slice`,
`Array.prototype.findIndex`, `Array.prototype.sort` with comparator
`(a, b) => a - b`, and 32-bit coercion by `<<` and `&`) are embedded with
their ECMAScript semantics below.
-/

namespace EntityHighlighter

/-- The `Entity` interface from `App.tsx`: a labelled half-open character
range `[start, end)` into the text. -/
structure Entity where
  start : Int
  «end» : Int
  label : String
  deriving DecidableEq, Repr

/-- The `Range` class: `constructor(public start: number, public end: number)`. -/
structure Range where
  start : Int
  «end» : Int
  deriving DecidableEq, Repr

/-- The `TextNode` class: `constructor(public text: string, public color?: string)`.
`getTextNodes` always supplies a color string (possibly empty). -/
structure TextNode where
  text : List Char
  color : String
  deriving DecidableEq, Repr

/-- One entry of the `colors` palette: `{name: string, bg: string}`. -/
structure Color where
  name : String
  bg : String
  deriving DecidableEq, Repr

/-- The fixed 13-entry `colors` palette. -/
def colors : List Color :=
  [⟨"blue", "#0074d9"⟩,
   ⟨"navy", "#001f3f"⟩,
   ⟨"lime", "#01ff70"⟩,
   ⟨"teal", "#39cccc"⟩,
   ⟨"olive", "#3d9970"⟩,
   ⟨"fuchsia", "#f012be"⟩,
   ⟨"red", "#ff4136"⟩,
   ⟨"green", "#2ecc40"⟩,
   ⟨"orange", "#ff851b"⟩,
   ⟨"maroon", "#85144b"⟩,
   ⟨"purple", "#b10dc9"⟩,
   ⟨"yellow", "#ffdc00"⟩,
   ⟨"aqua", "#7fdbff"⟩]

/-- ECMAScript `ToInt32`: wrap an integer into the signed 32-bit range
`[-2^31, 2^31)`.  This is what `hash &= hash` and the `<<` operator perform
in `hashString`. -/
def toInt32 (n : Int) : Int :=
  (n + 2147483648) % 4294967296 - 2147483648

/-- Embeds `hashString(str)`: `hash = (hash << 5) - hash + charCode; hash &= hash`
per character (both `<<` and `&=` coerce to signed 32 bits), then the result
is folded to a non-negative value by `hash > 0 ? hash : -hash`.  The early
`return 0` for the empty string agrees with the fold of the empty loop. -/
def hashString (str : String) : Int :=
  let hash := str.data.foldl
    (fun hash c => toInt32 (toInt32 (hash * 32) - hash + (c.toNat : Int))) 0
  if hash > 0 then hash else -hash

/-- Embeds `entityIsInsideRange(entity, range)`. -/
def entityIsInsideRange (entity : Entity) (range : Range) : Bool :=
  (entity.start ≥ range.start && entity.«end» < range.«end») ||
  (entity.start > range.start && entity.«end» ≤ range.«end»)

/-- Embeds `entityOverlapsWithRange(entity, range)`. -/
def entityOverlapsWithRange (entity : Entity) (range : Range) : Bool :=
  (entity.start < range.start && entity.«end» > range.start && entity.«end» ≤ range.«end») ||
  (entity.start ≥ range.start && entity.start < range.«end» && entity.«end» > range.«end»)

/-- Embeds `entityIsBeforeRange(entity, range)`. -/
def entityIsBeforeRange (entity : Entity) (range : Range) : Bool :=
  entity.start < range.start && entity.«end» ≤ range.start

/-- Embeds `entityIsBeyondRange(entity, range)`. -/
def entityIsBeyondRange (entity : Entity) (range : Range) : Bool :=
  entity.start ≥ range.«end» && entity.start > range.start

/-- Embeds `rangeIsInsideEntity(entity, range)`. -/
def rangeIsInsideEntity (entity : Entity) (range : Range) : Bool :=
  entity.start ≤ range.start && entity.«end» ≥ range.«end»

/-- The entity-reconciliation core of the `textChange` handler (the part
after `originalRange` has been derived): partition the entities by the
classification predicates, adjust the surviving ones, and drop zero-width
results.  `brokenEntities` is only used by the handler for a `console.log`
diagnostic and does not influence the result. -/
def textChange (entities : List Entity) (originalRange : Range) (textSizeDiff : Int) :
    List Entity :=
  let brokenEntities := entities.filter
    (fun entity => entityOverlapsWithRange entity originalRange ||
      entityIsInsideRange entity originalRange)
  let unchangedEntities := entities.filter
    (fun entity => entityIsBeforeRange entity originalRange)
  let modifiedEntities := (entities.filter
    (fun entity => rangeIsInsideEntity entity originalRange)).map
    (fun entity => { entity with «end» := entity.«end» + textSizeDiff })
  let shiftedEntities := (entities.filter
    (fun entity => entityIsBeyondRange entity originalRange)).map
    (fun entity => { entity with
      start := entity.start + textSizeDiff,
      «end» := entity.«end» + textSizeDiff })
  let _ := brokenEntities
  (unchangedEntities ++ modifiedEntities ++ shiftedEntities).filter
    (fun entity => entity.«end» > entity.start)

/-- ECMAScript `String.prototype.substring(a, b)`: both arguments are clamped
into `[0, length]` and swapped if out of order. -/
def substringJS (s : List Char) (a b : Int) : List Char :=
  let ca := (max 0 (min a (s.length : Int))).toNat
  let cb := (max 0 (min b (s.length : Int))).toNat
  (s.drop (min ca cb)).take (max ca cb - min ca cb)

/-- ECMAScript `Array.prototype.slice(start, stop)`: negative indices count
from the end, then both are clamped into `[0, length]`. -/
def sliceJS {α : Type} (l : List α) (start stop : Int) : List α :=
  let len : Int := l.length
  let s := if start < 0 then max (len + start) 0 else min start len
  let e := if stop < 0 then max (len + stop) 0 else min stop len
  (l.drop s.toNat).take (e.toNat - s.toNat)

/-- ECMAScript `Array.prototype.findIndex`: index of the first element
satisfying the predicate, `-1` when there is none. -/
def findIndexJS {α : Type} (p : α → Bool) : List α → Int
  | [] => -1
  | x :: xs =>
    if p x then 0
    else
      let r := findIndexJS p xs
      if r < 0 then -1 else r + 1

/-- Embeds `getRanges(bounds, accumulator)`: fold consecutive pairs of the bounds
list into `Range`s, filtering out the empty ones at the final step.  The
source recurses until exactly two bounds remain; a call with fewer than two
bounds never happens (`getTextNodes` always passes at least `[0, length]`)
and would not terminate in JavaScript, so that branch returns the filtered
accumulator here. -/
def getRanges (bounds : List Int) (accumulator : List Range) : List Range :=
  match bounds with
  | [b0, b1] =>
    (accumulator ++ [Range.mk b0 b1]).filter (fun range => range.«end» > range.start)
  | b0 :: b1 :: rest =>
    getRanges (b1 :: rest) (accumulator ++ [Range.mk b0 b1])
  | _ => accumulator.filter (fun range => range.«end» > range.start)

/-- The `bounds` array built at the top of `getTextNodes`: every entity's
`start` and `end`, flattened and sorted ascending (`sort((a, b) => a - b)`). -/
def boundsOf (entities : List Entity) : List Int :=
  ((entities.map (fun entity => [entity.start, entity.«end»])).flatten).mergeSort
    (fun a b => a ≤ b)

/-- Embeds `rangeBelongsToEntities(entities, range)`. -/
def rangeBelongsToEntities (entities : List Entity) (range : Range) : List Entity :=
  entities.filter (fun entity => rangeIsInsideEntity entity range)

/-- Embeds `mixColorsMock()`: the fixed color used for every overlap. -/
def mixColorsMock : String := "#00ff00"

/-- Embeds `getTextNodeColor(entitiesInRange)`: empty string for no entity, palette
entry selected by the label hash for exactly one, `mixColorsMock` otherwise. -/
def getTextNodeColor : List Entity → String
  | [] => ""
  | [entity] =>
    (colors.getD (hashString entity.label % (colors.length : Int)).toNat ⟨"", ""⟩).bg
  | _ => mixColorsMock

/-- The `ranges` list computed inside `getTextNodes`:
`this.getRanges([0, ...bounds, text.length])`. -/
def segmentRanges (text : List Char) (entities : List Entity) : List Range :=
  getRanges ((0 : Int) :: boundsOf entities ++ [(text.length : Int)]) []

/-- Embeds `getTextNodes(text, entities)`: split the text at every entity boundary
and attach a color to each chunk. -/
def getTextNodes (text : List Char) (entities : List Entity) : List TextNode :=
  (segmentRanges text entities).map
    (fun range => TextNode.mk (substringJS text range.start range.«end»)
      (getTextNodeColor (rangeBelongsToEntities entities range)))

/-- Embeds `deleteEntity(entity)`: locate the first entity whose `(start, end, label)`
triple equals the argument's and splice it out, then hand `(text, entities)`
to `onChange`.  The result models the pair passed to `onChange`. -/
def deleteEntity (text : List Char) (entities : List Entity) (entity : Entity) :
    List Char × List Entity :=
  let deleted := findIndexJS
    (fun e => e.start == entity.start && e.«end» == entity.«end» && e.label == entity.label)
    entities
  (text, sliceJS entities 0 deleted ++ sliceJS entities (deleted + 1) (entities.length : Int))

/-- Embeds `addEntity()`: append a new entity for the current selection and the
label input text, then hand `(text, entities)` to `onChange`.  The result
models the pair passed to `onChange`. -/
def addEntity (text : List Char) (entities : List Entity)
    (selectionStart selectionEnd : Int) (entityLabelInputText : String) :
    List Char × List Entity :=
  (text, entities ++ [⟨selectionStart, selectionEnd, entityLabelInputText⟩])

/-! Proof-infrastructure definitions (not part of the source program). -/

/-- The list of consecutive bound pairs that `getRanges` walks through:
`pairsOf [b0, b1, b2, ...] = [⟨b0, b1⟩, ⟨b1, b2⟩, ...]`. -/
def pairsOf : List Int → List Range
  | b0 :: b1 :: rest => Range.mk b0 b1 :: pairsOf (b1 :: rest)
  | _ => []

/-- Clamp an integer index into `[0, len]`, as `String.prototype.substring`
does with each of its arguments. -/
def clampIdx (len : Nat) (i : Int) : Nat :=
  (max 0 (min i (len : Int))).toNat

/-! Theorems. -/

/-- C1 (counterexample): inserting `"!"` at position 5 of `"hello world"`
(change region `[5,5)`, delta `+1`) with the single span
`{start 0, end 5, label "greeting"}` does NOT produce a span set whose only
element is that span. -/
theorem c1_counterexample :
    textChange [Entity.mk 0 5 "greeting"] (Range.mk 5 5) 1 ≠
      [Entity.mk 0 5 "greeting"] := by
  decide

/-- C1 (amended): for the insertion at a span's exact end boundary, the span
satisfies both `entityIsBeforeRange` and `rangeIsInsideEntity`, so the
reconciliation emits TWO copies: the unchanged span `{0,5,"greeting"}` and an
extended duplicate `{0,6,"greeting"}`. -/
theorem c1_amended :
    entityIsBeforeRange (Entity.mk 0 5 "greeting") (Range.mk 5 5) = true ∧
    rangeIsInsideEntity (Entity.mk 0 5 "greeting") (Range.mk 5 5) = true ∧
    textChange [Entity.mk 0 5 "greeting"] (Range.mk 5 5) 1 =
      [Entity.mk 0 5 "greeting", Entity.mk 0 6 "greeting"] := by
  refine ⟨by decide, by decide, by decide⟩

/-- C3 (counterexample): the span `{2,5}` and the change region `[3,5)`
satisfy the overlapping-boundary condition, yet the span is NOT absent from
the reconciled output (it also satisfies `rangeIsInsideEntity`, so it
survives as a modified entity). -/
theorem c3_counterexample :
    entityOverlapsWithRange (Entity.mk 2 5 "x") (Range.mk 3 5) = true ∧
    textChange [Entity.mk 2 5 "x"] (Range.mk 3 5) 0 = [Entity.mk 2 5 "x"] := by
  refine ⟨by decide, by decide⟩

/-- C3 (amended): a span satisfying the overlapping-boundary condition is
dropped from the reconciled output, provided it does not ALSO fully contain
the change region (`rangeIsInsideEntity`); a span satisfying both conditions
survives as a modified entity instead. -/
theorem c3_amended :
    ∀ (e : Entity) (r : Range) (d : Int),
      entityOverlapsWithRange e r = true →
      rangeIsInsideEntity e r = false →
      textChange [e] r d = [] := by
  intro e r d hov hin
  simp only [entityOverlapsWithRange, Bool.or_eq_true, Bool.and_eq_true,
    decide_eq_true_eq] at hov
  rw [← Bool.not_eq_true] at hin
  simp only [rangeIsInsideEntity, Bool.and_eq_true, decide_eq_true_eq, not_and] at hin
  have hbef : entityIsBeforeRange e r = false := by
    simp only [entityIsBeforeRange, Bool.and_eq_false_iff, decide_eq_false_iff_not]
    omega
  have hbey : entityIsBeyondRange e r = false := by
    simp only [entityIsBeyondRange, Bool.and_eq_false_iff, decide_eq_false_iff_not]
    omega
  have hins : rangeIsInsideEntity e r = false := by
    simp only [rangeIsInsideEntity, Bool.and_eq_false_iff, decide_eq_false_iff_not]
    omega
  simp [textChange, List.filter_cons, hbef, hbey, hins]

/-- C3 (witness): the spec's own instance — span `{2,5}` with change region
`[1,4)` (here with delta `-3`, a pure deletion) is dropped. -/
theorem c3_witness :
    textChange [Entity.mk 2 5 "x"] (Range.mk 1 4) (-3) = [] :=
  c3_amended (Entity.mk 2 5 "x") (Range.mk 1 4) (-3) (by decide) (by decide)

/-- C9: the chunk color is a pure function of the covering-entity list:
no entity gives the empty color; exactly one gives the palette entry at
index `hashString label % 13` (the hash is non-negative, so the index is in
bounds of the 13-entry palette); the per-character accumulation equals the
32-bit wrap of `hash * 31 + charCode`; two or more entities give the fixed
overlap color `mixColorsMock`. -/
theorem c9_color :
    getTextNodeColor [] = "" ∧
    colors.length = 13 ∧
    (∀ e : Entity,
      0 ≤ hashString e.label ∧
      (hashString e.label % (colors.length : Int)).toNat < colors.length ∧
      getTextNodeColor [e] =
        (colors.getD (hashString e.label % (colors.length : Int)).toNat ⟨"", ""⟩).bg) ∧
    (∀ h c : Int, toInt32 (toInt32 (h * 32) - h + c) = toInt32 (h * 31 + c)) ∧
    (∀ l : List Entity, 2 ≤ l.length → getTextNodeColor l = mixColorsMock) := by
  refine ⟨rfl, rfl, ?_, ?_, ?_⟩
  · intro e
    have hnn : 0 ≤ hashString e.label := by
      simp only [hashString]
      split <;> omega
    refine ⟨hnn, ?_, rfl⟩
    have h13 : (0:Int) < (colors.length : Int) := by decide
    have := Int.emod_lt_of_pos (hashString e.label) h13
    have := Int.emod_nonneg (hashString e.label) (by decide : ((colors.length : Int)) ≠ 0)
    omega
  · intro h c
    unfold toInt32
    omega
  · intro l hl
    match l with
    | a :: b :: rest => rfl

/-- C9 (witness): two entities covering a chunk are painted with the fixed
overlap color. -/
theorem c9_witness :
    getTextNodeColor [Entity.mk 0 5 "A", Entity.mk 2 7 "B"] = mixColorsMock :=
  c9_color.2.2.2.2 [Entity.mk 0 5 "A", Entity.mk 2 7 "B"] (by decide)

/-- C10: neither entity command modifies the text — both `deleteEntity` and
`addEntity` pass the current text unchanged as the first component of the
pair handed to `onChange`. -/
theorem c10_frame :
    ∀ (text : List Char) (entities : List Entity) (entity : Entity)
      (selectionStart selectionEnd : Int) (entityLabelInputText : String),
      (deleteEntity text entities entity).1 = text ∧
      (addEntity text entities selectionStart selectionEnd entityLabelInputText).1 = text := by
  intro text entities entity selectionStart selectionEnd entityLabelInputText
  exact ⟨rfl, rfl⟩

/-- C7: a span fully containing the change region (`rangeIsInsideEntity`)
survives with `start` unchanged and `end` increased by the length delta,
provided the adjusted span is still non-empty; in particular, deleting the
character at offset 0 of `"hello"` with span `{0,5,"x"}` (region `[0,1)`,
delta `-1`) yields exactly `[{0,4,"x"}]`. -/
theorem c7_region_inside :
    (∀ (entities : List Entity) (e : Entity) (r : Range) (d : Int),
      e ∈ entities → rangeIsInsideEntity e r = true → e.start < e.«end» + d →
      Entity.mk e.start (e.«end» + d) e.label ∈ textChange entities r d) ∧
    textChange [Entity.mk 0 5 "x"] (Range.mk 0 1) (-1) = [Entity.mk 0 4 "x"] := by
  constructor
  · intro entities e r d hmem hin hlt
    simp only [textChange, List.mem_filter, List.mem_append, List.mem_map,
      decide_eq_true_eq]
    exact ⟨Or.inl (Or.inr ⟨e, ⟨hmem, hin⟩, rfl⟩), hlt⟩
  · decide

/-- C7 (witness): the spec scenario instantiated through the theorem. -/
theorem c7_witness :
    Entity.mk 0 4 "x" ∈ textChange [Entity.mk 0 5 "x"] (Range.mk 0 1) (-1) :=
  c7_region_inside.1 [Entity.mk 0 5 "x"] (Entity.mk 0 5 "x") (Range.mk 0 1) (-1)
    (by decide) (by decide) (by decide)

/-- C8: for a pure insertion of `k ≥ 0` characters at point `p` (region
`[p,p)`, delta `+k`), every span starting strictly after `p` appears in the
output shifted by exactly `k`; and for every edit, every span ending at or
before the region start appears in the output unchanged. -/
theorem c8_shift_and_before :
    (∀ (entities : List Entity) (e : Entity) (p k : Int),
      e ∈ entities → 0 ≤ k → p < e.start → e.start < e.«end» →
      Entity.mk (e.start + k) (e.«end» + k) e.label ∈
        textChange entities (Range.mk p p) k) ∧
    (∀ (entities : List Entity) (e : Entity) (r : Range) (d : Int),
      e ∈ entities → e.«end» ≤ r.start → e.start < e.«end» →
      e ∈ textChange entities r d) := by
  constructor
  · intro entities e p k hmem hk hp hwf
    simp only [textChange, List.mem_filter, List.mem_append, List.mem_map,
      decide_eq_true_eq]
    refine ⟨Or.inr ⟨e, ⟨hmem, ?_⟩, rfl⟩, by omega⟩
    simp only [entityIsBeyondRange, Bool.and_eq_true, decide_eq_true_eq]
    omega
  · intro entities e r d hmem hbef hwf
    simp only [textChange, List.mem_filter, List.mem_append, List.mem_map,
      decide_eq_true_eq]
    refine ⟨Or.inl (Or.inl ⟨hmem, ?_⟩), hwf⟩
    simp only [entityIsBeforeRange, Bool.and_eq_true, decide_eq_true_eq]
    omega

/-- C8 (witness): a span `{6,8}` behind an insertion of one character at 5
shifts to `{7,9}`, and a span `{0,2}` ahead of a deletion in `[3,4)` is
unchanged. -/
theorem c8_witness :
    Entity.mk 7 9 "x" ∈ textChange [Entity.mk 6 8 "x"] (Range.mk 5 5) 1 ∧
    Entity.mk 0 2 "y" ∈ textChange [Entity.mk 0 2 "y"] (Range.mk 3 4) (-1) :=
  ⟨c8_shift_and_before.1 [Entity.mk 6 8 "x"] (Entity.mk 6 8 "x") 5 1
      (by decide) (by decide) (by decide) (by decide),
    c8_shift_and_before.2 [Entity.mk 0 2 "y"] (Entity.mk 0 2 "y") (Range.mk 3 4) (-1)
      (by decide) (by decide) (by decide)⟩

/-- When no element satisfies the predicate, `findIndexJS` returns `-1`. -/
lemma findIndexJS_of_not_any {α : Type} (p : α → Bool) :
    ∀ (l : List α), l.any p = false → findIndexJS p l = -1 := by
  intro l
  induction l with
  | nil => intro _; rfl
  | cons x xs ih =>
    intro h
    simp only [List.any_cons, Bool.or_eq_false_iff] at h
    simp only [findIndexJS, h.1, if_false, ih h.2]
    rfl

/-- When some element satisfies the predicate, `findIndexJS` returns an index
inside the list. -/
lemma findIndexJS_nonneg_lt {α : Type} (p : α → Bool) :
    ∀ (l : List α), l.any p = true →
      0 ≤ findIndexJS p l ∧ findIndexJS p l < (l.length : Int) := by
  intro l
  induction l with
  | nil => intro h; simp at h
  | cons x xs ih =>
    intro h
    by_cases hx : p x
    · simp only [findIndexJS, hx, if_true, List.length_cons]
      omega
    · simp only [List.any_cons, hx, Bool.false_or] at h
      obtain ⟨h1, h2⟩ := ih h
      simp only [findIndexJS, hx, if_false, List.length_cons]
      rw [if_neg (show ¬ findIndexJS p xs < 0 by omega)]
      omega

/-- Evaluates `sliceJS` when both arguments are already inside `[0, length]` is a plain
`drop`/`take` window. -/
lemma sliceJS_eq_drop_take {α : Type} (l : List α) (a b : Int)
    (ha0 : 0 ≤ a) (hal : a ≤ (l.length : Int)) (hb0 : 0 ≤ b) (hbl : b ≤ (l.length : Int)) :
    sliceJS l a b = (l.drop a.toNat).take (b.toNat - a.toNat) := by
  simp only [sliceJS, if_neg (by omega : ¬ a < 0), if_neg (by omega : ¬ b < 0),
    min_eq_left hal, min_eq_left hbl]

/-- Evaluates `sliceJS l 0 (-1)` (the no-match path of `deleteEntity`) drops the last
element. -/
lemma sliceJS_zero_neg_one {α : Type} (l : List α) :
    sliceJS l 0 (-1) = l.dropLast := by
  simp only [sliceJS, if_neg (by omega : ¬ (0:Int) < 0), if_pos (by omega : (-1:Int) < 0)]
  rw [min_eq_left (by positivity), List.dropLast_eq_take]
  simp only [Int.toNat_zero, List.drop_zero]
  congr 1
  omega

/-- Evaluates `sliceJS l 0 l.length`: it is the whole list. -/
lemma sliceJS_full {α : Type} (l : List α) :
    sliceJS l 0 (l.length : Int) = l := by
  rw [sliceJS_eq_drop_take l 0 (l.length : Int) (by omega) (by omega) (by omega) (by omega)]
  simp

/-- The two slices around the first matching index recompose to `eraseP`. -/
lemma sliceJS_findIndexJS_eraseP {α : Type} (p : α → Bool) :
    ∀ (l : List α), l.any p = true →
      sliceJS l 0 (findIndexJS p l) ++ sliceJS l (findIndexJS p l + 1) (l.length : Int) =
        l.eraseP p := by
  intro l
  induction l with
  | nil => intro h; simp at h
  | cons x xs ih =>
    intro h
    have hlen : (((x :: xs).length : Nat) : Int) = (xs.length : Int) + 1 := by
      simp only [List.length_cons]
      push_cast
      ring
    by_cases hx : p x
    · have hfi : findIndexJS p (x :: xs) = 0 := by simp [findIndexJS, hx]
      rw [hfi, List.eraseP_cons_of_pos hx, hlen,
        show (0:Int) + 1 = 1 by norm_num]
      rw [sliceJS_eq_drop_take (x :: xs) 0 0 (by omega) (by omega) (by omega) (by omega),
        sliceJS_eq_drop_take (x :: xs) 1 ((xs.length : Int) + 1) (by omega)
          (by simp only [List.length_cons]; push_cast; omega) (by omega)
          (by simp only [List.length_cons]; push_cast; omega)]
      have he1 : ((xs.length : Int) + 1).toNat = xs.length + 1 := by omega
      simp [he1]
    · simp only [List.any_cons, hx, Bool.false_or] at h
      obtain ⟨h1, h2⟩ := findIndexJS_nonneg_lt p xs h
      have hstep : findIndexJS p (x :: xs) = findIndexJS p xs + 1 := by
        simp only [findIndexJS, if_neg hx,
          if_neg (show ¬ findIndexJS p xs < 0 by omega)]
      rw [hstep, List.eraseP_cons_of_neg hx, ← ih h, hlen]
      rw [sliceJS_eq_drop_take (x :: xs) 0 (findIndexJS p xs + 1) (by omega)
          (by simp only [List.length_cons]; push_cast; omega) (by omega)
          (by simp only [List.length_cons]; push_cast; omega),
        sliceJS_eq_drop_take (x :: xs) (findIndexJS p xs + 1 + 1) ((xs.length : Int) + 1)
          (by omega) (by simp only [List.length_cons]; push_cast; omega) (by omega)
          (by simp only [List.length_cons]; push_cast; omega),
        sliceJS_eq_drop_take xs 0 (findIndexJS p xs) (by omega) (by omega) (by omega)
          (by omega),
        sliceJS_eq_drop_take xs (findIndexJS p xs + 1) ((xs.length : Int)) (by omega)
          (by omega) (by omega) (by omega)]
      have he1 : (findIndexJS p xs + 1).toNat = (findIndexJS p xs).toNat + 1 := by omega
      have he2 : (findIndexJS p xs + 1 + 1).toNat = (findIndexJS p xs).toNat + 2 := by omega
      have he3 : ((xs.length : Int)).toNat = xs.length := by omega
      have he6 : ((xs.length : Int) + 1).toNat = xs.length + 1 := by omega
      have he5 : xs.length + 1 - ((findIndexJS p xs).toNat + 2) =
          xs.length - ((findIndexJS p xs).toNat + 1) := by omega
      simp only [Int.toNat_zero, List.drop_zero, Nat.sub_zero, he1, he2, he3, he6, he5,
        List.take_succ_cons, List.drop_succ_cons, List.cons_append]

/-- C2 (counterexample): deleting an entity that matches nothing in a
two-element list is NOT a structural no-op — `findIndex` returns `-1` and
`slice(0, -1) ++ slice(0)` duplicates the first element. -/
theorem c2_counterexample :
    (deleteEntity [] [Entity.mk 0 1 "a", Entity.mk 2 3 "b"] (Entity.mk 5 6 "c")).2 ≠
      [Entity.mk 0 1 "a", Entity.mk 2 3 "b"] := by
  decide

/-- C2 (amended): when some span's `(start, end, label)` triple equals the
target's, `deleteEntity` removes exactly the first such span, leaving every
other span unchanged and in order (`List.eraseP`); when no span matches, the
result is `entities.dropLast ++ entities` — a structural no-op only for
lists with at most one element. -/
theorem c2_amended :
    ∀ (text : List Char) (entities : List Entity) (entity : Entity),
      (entities.any
          (fun e => e.start == entity.start && e.«end» == entity.«end» &&
            e.label == entity.label) = true →
        (deleteEntity text entities entity).2 =
          entities.eraseP
            (fun e => e.start == entity.start && e.«end» == entity.«end» &&
              e.label == entity.label)) ∧
      (entities.any
          (fun e => e.start == entity.start && e.«end» == entity.«end» &&
            e.label == entity.label) = false →
        (deleteEntity text entities entity).2 = entities.dropLast ++ entities) := by
  intro text entities entity
  constructor
  · intro h
    simp only [deleteEntity]
    exact sliceJS_findIndexJS_eraseP _ entities h
  · intro h
    simp only [deleteEntity, findIndexJS_of_not_any _ entities h]
    rw [show (-1 : Int) + 1 = 0 by norm_num, sliceJS_zero_neg_one, sliceJS_full]

/-- C2 (witness): both branches of the amended statement at concrete inputs —
deleting `{0,1,"a"}` from `[{0,1,"a"}, {2,3,"b"}, {0,1,"a"}]` removes only
the first copy, and deleting an absent value from a two-element list
produces the duplicated list. -/
theorem c2_witness :
    (deleteEntity [] [Entity.mk 0 1 "a", Entity.mk 2 3 "b", Entity.mk 0 1 "a"]
        (Entity.mk 0 1 "a")).2 =
      [Entity.mk 0 1 "a", Entity.mk 2 3 "b", Entity.mk 0 1 "a"].eraseP
        (fun e => e.start == (0:Int) && e.«end» == (1:Int) && e.label == "a") ∧
    (deleteEntity [] [Entity.mk 0 1 "a", Entity.mk 2 3 "b"] (Entity.mk 5 6 "c")).2 =
      [Entity.mk 0 1 "a", Entity.mk 2 3 "b"].dropLast ++
        [Entity.mk 0 1 "a", Entity.mk 2 3 "b"] :=
  ⟨(c2_amended [] [Entity.mk 0 1 "a", Entity.mk 2 3 "b", Entity.mk 0 1 "a"]
      (Entity.mk 0 1 "a")).1 (by decide),
    (c2_amended [] [Entity.mk 0 1 "a", Entity.mk 2 3 "b"] (Entity.mk 5 6 "c")).2
      (by decide)⟩

/-- C4: when the old spans are well-formed for the old text, the change
region lies inside the old text, and the length delta does not remove more
characters than the region holds, every reconciled span satisfies
`0 ≤ start < end ≤ newLength` where `newLength = oldLength + delta`. -/
theorem c4_invariant :
    ∀ (entities : List Entity) (r : Range) (d oldLen : Int),
      (∀ e ∈ entities, 0 ≤ e.start ∧ e.start < e.«end» ∧ e.«end» ≤ oldLen) →
      0 ≤ r.start → r.start ≤ r.«end» → r.«end» ≤ oldLen →
      -(r.«end» - r.start) ≤ d →
      ∀ e ∈ textChange entities r d,
        0 ≤ e.start ∧ e.start < e.«end» ∧ e.«end» ≤ oldLen + d := by
  intro entities r d oldLen hwf hr0 hrr hrl hd e hmem
  simp only [textChange, List.mem_filter, List.mem_append, List.mem_map,
    decide_eq_true_eq] at hmem
  obtain ⟨hcase, hpos⟩ := hmem
  rcases hcase with (hunch | hmod) | hshift
  · obtain ⟨he, hbef⟩ := hunch
    simp only [entityIsBeforeRange, Bool.and_eq_true, decide_eq_true_eq] at hbef
    have := hwf e he
    omega
  · obtain ⟨a, ⟨ha, hin⟩, rfl⟩ := hmod
    simp only [rangeIsInsideEntity, Bool.and_eq_true, decide_eq_true_eq] at hin
    have := hwf a ha
    simp only at hpos ⊢
    omega
  · obtain ⟨a, ⟨ha, hbey⟩, rfl⟩ := hshift
    simp only [entityIsBeyondRange, Bool.and_eq_true, decide_eq_true_eq] at hbey
    have := hwf a ha
    simp only at hpos ⊢
    omega

/-- C4 (witness): deleting the character at offset 1 of a three-character
text carrying the span `{0,2,"a"}` yields the span `{0,1,"a"}`, which
satisfies the invariant for the new length `3 + (-1)`. -/
theorem c4_witness :
    0 ≤ (Entity.mk 0 1 "a").start ∧
    (Entity.mk 0 1 "a").start < (Entity.mk 0 1 "a").«end» ∧
    (Entity.mk 0 1 "a").«end» ≤ 3 + (-1) :=
  c4_invariant [Entity.mk 0 2 "a"] (Range.mk 1 2) (-1) 3
    (by decide) (by decide) (by decide) (by decide) (by decide)
    (Entity.mk 0 1 "a") (by decide)

/-- Shows `getRanges` as the filtered consecutive-pair list (the accumulator is
prepended). -/
lemma getRanges_eq_pairsOf :
    ∀ (rest : List Int) (b0 b1 : Int) (accumulator : List Range),
      getRanges (b0 :: b1 :: rest) accumulator =
        (accumulator ++ pairsOf (b0 :: b1 :: rest)).filter
          (fun range => range.«end» > range.start) := by
  intro rest
  induction rest with
  | nil =>
    intro b0 b1 accumulator
    simp [getRanges, pairsOf]
  | cons b2 rest ih =>
    intro b0 b1 accumulator
    rw [show getRanges (b0 :: b1 :: b2 :: rest) accumulator =
        getRanges (b1 :: b2 :: rest) (accumulator ++ [Range.mk b0 b1]) from rfl,
      ih]
    simp [pairsOf]

/-- Shows `getRanges` on a bounds list of length at least two, starting from the
empty accumulator. -/
lemma getRanges_eq_pairsOf' (b0 : Int) (l : List Int) (h : l ≠ []) :
    getRanges (b0 :: l) [] =
      (pairsOf (b0 :: l)).filter (fun range => range.«end» > range.start) := by
  obtain ⟨b1, rest, rfl⟩ := List.exists_cons_of_ne_nil h
  rw [getRanges_eq_pairsOf rest b0 b1 []]
  simp

/-- Monotonicity of `clampIdx`. -/
lemma clampIdx_mono (len : Nat) {a b : Int} (h : a ≤ b) :
    clampIdx len a ≤ clampIdx len b := by
  simp only [clampIdx]
  omega

/-- Bound of `clampIdx` by the length. -/
lemma clampIdx_le_len (len : Nat) (i : Int) : clampIdx len i ≤ len := by
  simp only [clampIdx]
  omega

/-- Value of `clampIdx` at zero. -/
lemma clampIdx_zero (len : Nat) : clampIdx len 0 = 0 := by
  simp only [clampIdx]
  omega

/-- Value of `clampIdx` at the length itself. -/
lemma clampIdx_len (len : Nat) : clampIdx len (len : Int) = len := by
  simp only [clampIdx]
  omega

/-- Evaluates `substringJS` with in-order clamped endpoints is a `drop`/`take` window. -/
lemma substringJS_eq_drop_take (s : List Char) (a b : Int)
    (h : clampIdx s.length a ≤ clampIdx s.length b) :
    substringJS s a b =
      (s.drop (clampIdx s.length a)).take (clampIdx s.length b - clampIdx s.length a) := by
  simp only [substringJS, clampIdx] at h ⊢
  rw [min_eq_left h, max_eq_right h]

/-- A slice window glued to the tail at its right end recovers the tail at
its left end. -/
lemma drop_take_glue (s : List Char) (m n : Nat) (h : m ≤ n) :
    (s.drop m).take (n - m) ++ s.drop n = s.drop m := by
  have hdd : s.drop n = (s.drop m).drop (n - m) := by
    rw [List.drop_drop]
    congr 1
    omega
  rw [hdd, List.take_append_drop]

/-- Telescoping: the concatenated filtered pair slices over a clamp-monotone
bounds list reach from the first clamp to the last. -/
lemma telescope (text : List Char) :
    ∀ (l : List Int) (a : Int),
      List.Chain' (fun x y => clampIdx text.length x ≤ clampIdx text.length y) (a :: l) →
      (((pairsOf (a :: l)).filter (fun range => range.«end» > range.start)).map
          (fun range => substringJS text range.start range.«end»)).flatten ++
        text.drop (clampIdx text.length (l.getLastD a)) =
      text.drop (clampIdx text.length a) := by
  intro l
  induction l with
  | nil =>
    intro a _
    simp [pairsOf]
  | cons b l ih =>
    intro a hchain
    rw [List.chain'_cons] at hchain
    obtain ⟨hab, hchain⟩ := hchain
    have htail := ih b hchain
    simp only [pairsOf, List.getLastD_cons]
    by_cases hkeep : b > a
    · rw [List.filter_cons_of_pos (by simpa using hkeep)]
      simp only [List.map_cons, List.flatten_cons, List.append_assoc, htail]
      rw [substringJS_eq_drop_take text a b hab]
      exact drop_take_glue text _ _ hab
    · rw [List.filter_cons_of_neg (by simpa using hkeep)]
      have hba : clampIdx text.length b ≤ clampIdx text.length a :=
        clampIdx_mono text.length (by omega)
      have heq : clampIdx text.length a = clampIdx text.length b := by omega
      rw [htail, heq]

/-- The sorted bounds list is chain-ordered. -/
lemma boundsOf_chain (entities : List Entity) :
    List.Chain' (fun a b : Int => a ≤ b) (boundsOf entities) := by
  unfold boundsOf
  refine List.Pairwise.chain' (List.Pairwise.imp ?_ (List.sorted_mergeSort ?_ ?_ _))
  · intro a b hab
    simpa using hab
  · intro a b c h1 h2
    simp only [decide_eq_true_eq] at h1 h2 ⊢
    omega
  · intro a b
    simp only [Bool.or_eq_true, decide_eq_true_eq]
    omega

/-- Prefixing `0` and suffixing the text length keeps the clamp-monotone
chain, with no assumption on the bounds themselves. -/
lemma chain_clampIdx (text : List Char) (bs : List Int)
    (hbs : List.Chain' (fun a b : Int => a ≤ b) bs) :
    List.Chain' (fun x y => clampIdx text.length x ≤ clampIdx text.length y)
      ((0 : Int) :: (bs ++ [(text.length : Int)])) := by
  rw [List.chain'_cons']
  constructor
  · intro y _
    rw [clampIdx_zero]
    omega
  · rw [List.chain'_append]
    refine ⟨hbs.imp (fun a b hab => clampIdx_mono text.length hab),
      List.chain'_singleton _, ?_⟩
    intro x _ y hy
    have hyL : y = (text.length : Int) := by
      have := hy
      simp only [List.head?_cons, Option.mem_def, Option.some.injEq] at this
      omega
    rw [hyL, clampIdx_len]
    exact clampIdx_le_len text.length x

/-- C5: for every text and every span list (well-formed or not, including
the empty list), the concatenation of the chunk texts produced by
`getTextNodes` equals the input text. -/
theorem c5_concat :
    ∀ (text : List Char) (entities : List Entity),
      ((getTextNodes text entities).map TextNode.text).flatten = text := by
  intro text entities
  unfold getTextNodes segmentRanges
  rw [List.map_map, List.cons_append]
  rw [getRanges_eq_pairsOf' 0 (boundsOf entities ++ [(text.length : Int)])
    (by simp)]
  have h := telescope text (boundsOf entities ++ [(text.length : Int)]) 0
    (chain_clampIdx text (boundsOf entities) (boundsOf_chain entities))
  rw [List.getLastD_concat, clampIdx_len, List.drop_length, List.append_nil,
    clampIdx_zero, List.drop_zero] at h
  exact h

/-- In a chain-ordered bounds list, every pair starts at or after the head. -/
lemma pairsOf_head_le :
    ∀ (l : List Int) (c : Int),
      List.Chain' (fun a b : Int => a ≤ b) (c :: l) →
      ∀ r ∈ pairsOf (c :: l), c ≤ r.start := by
  intro l
  induction l with
  | nil =>
    intro c _ r hr
    simp [pairsOf] at hr
  | cons d l ih =>
    intro c hchain r hr
    rw [List.chain'_cons] at hchain
    obtain ⟨hcd, hchain⟩ := hchain
    simp only [pairsOf, List.mem_cons] at hr
    rcases hr with rfl | hr
    · exact le_refl c
    · exact le_trans hcd (ih d hchain r hr)

/-- The consecutive pairs of a chain-ordered bounds list are pairwise
ordered end-to-start. -/
lemma pairsOf_pairwise :
    ∀ (l : List Int),
      List.Chain' (fun a b : Int => a ≤ b) l →
      List.Pairwise (fun r1 r2 : Range => r1.«end» ≤ r2.start) (pairsOf l) := by
  intro l
  induction l with
  | nil => intro _; simp [pairsOf]
  | cons b t ih =>
    intro hchain
    match t with
    | [] => simp [pairsOf]
    | c :: t' =>
      rw [List.chain'_cons] at hchain
      obtain ⟨hbc, hchain⟩ := hchain
      simp only [pairsOf]
      refine List.Pairwise.cons ?_ (ih hchain)
      intro r hr
      exact pairsOf_head_le t' c hchain r hr

/-- Every element of the sorted bounds list is a `start` or `end` of some
entity. -/
lemma mem_boundsOf (entities : List Entity) (b : Int) (h : b ∈ boundsOf entities) :
    ∃ e ∈ entities, b = e.start ∨ b = e.«end» := by
  unfold boundsOf at h
  rw [List.mem_mergeSort] at h
  simp only [List.mem_flatten, List.mem_map] at h
  obtain ⟨l, ⟨e, he, rfl⟩, hb⟩ := h
  simp only [List.mem_cons, List.not_mem_nil, or_false] at hb
  exact ⟨e, he, hb⟩

/-- For well-formed spans, the full bounds list `0 :: bounds ++ [length]` is
genuinely chain-ordered. -/
lemma chain_bounds_wf (text : List Char) (entities : List Entity)
    (hwf : ∀ e ∈ entities, 0 ≤ e.start ∧ e.start < e.«end» ∧ e.«end» ≤ (text.length : Int)) :
    List.Chain' (fun a b : Int => a ≤ b)
      ((0 : Int) :: (boundsOf entities ++ [(text.length : Int)])) := by
  have hmem : ∀ b ∈ boundsOf entities, 0 ≤ b ∧ b ≤ (text.length : Int) := by
    intro b hb
    obtain ⟨e, he, hcase⟩ := mem_boundsOf entities b hb
    have := hwf e he
    omega
  rw [List.chain'_cons']
  constructor
  · intro y hy
    have hym : y ∈ boundsOf entities ++ [(text.length : Int)] :=
      List.mem_of_mem_head? hy
    rw [List.mem_append, List.mem_singleton] at hym
    rcases hym with hym | rfl
    · exact (hmem y hym).1
    · omega
  · rw [List.chain'_append]
    refine ⟨boundsOf_chain entities, List.chain'_singleton _, ?_⟩
    intro x hx y hy
    have hxm : x ∈ boundsOf entities := List.mem_of_mem_getLast? hx
    have hyL : y = (text.length : Int) := by
      have := hy
      simp only [List.head?_cons, Option.mem_def, Option.some.injEq] at this
      omega
    rw [hyL]
    exact (hmem x hxm).2

/-- C6: for well-formed spans, the chunk ranges produced by segmentation are
non-empty, pairwise disjoint, and emitted in ascending order (each chunk
starts at or after the previous chunk's end). -/
theorem c6_disjoint :
    ∀ (text : List Char) (entities : List Entity),
      (∀ e ∈ entities, 0 ≤ e.start ∧ e.start < e.«end» ∧ e.«end» ≤ (text.length : Int)) →
      (∀ r ∈ segmentRanges text entities, r.start < r.«end») ∧
      List.Pairwise (fun r1 r2 : Range => r1.«end» ≤ r2.start)
        (segmentRanges text entities) ∧
      List.Chain' (fun r1 r2 : Range => r1.«end» ≤ r2.start)
        (segmentRanges text entities) := by
  intro text entities hwf
  have hseg : segmentRanges text entities =
      (pairsOf ((0 : Int) :: (boundsOf entities ++ [(text.length : Int)]))).filter
        (fun range => range.«end» > range.start) := by
    unfold segmentRanges
    rw [List.cons_append]
    exact getRanges_eq_pairsOf' 0 (boundsOf entities ++ [(text.length : Int)]) (by simp)
  have hpw : List.Pairwise (fun r1 r2 : Range => r1.«end» ≤ r2.start)
      (segmentRanges text entities) := by
    rw [hseg]
    exact List.Pairwise.filter _
      (pairsOf_pairwise _ (chain_bounds_wf text entities hwf))
  refine ⟨?_, hpw, hpw.chain'⟩
  intro r hr
  rw [hseg] at hr
  have := List.of_mem_filter hr
  simpa using this

/-- C6 (witness): text of length 2 with the single span `{0,1,"x"}`. -/
theorem c6_witness :
    List.Pairwise (fun r1 r2 : Range => r1.«end» ≤ r2.start)
      (segmentRanges ['a', 'b'] [Entity.mk 0 1 "x"]) :=
  (c6_disjoint ['a', 'b'] [Entity.mk 0 1 "x"] (by decide)).2.1

end EntityHighlighter
